import Mathlib

/-!
Shallow embedding of the checkers engine (src/board.rs, src/montecarlo.rs)
and proofs about its move generation, action execution, and MCTS
bookkeeping.

Conventions of the embedding:
* Rust `usize` indices are `Nat`; the `as usize` cast of a possibly
  negative `i32` is `usizeCast`, which reduces modulo 2 ^ 64 (sign
  extension followed by reinterpretation).
* A Rust panic (array index out of bounds, `Option::unwrap` on `None`,
  explicit `panic!`) is modelled by `Option.none` in the result type of
  the operation that can panic.
* The ambient random number generator is modelled by explicit oracle
  parameters: `rand::thread_rng().gen_range(0..n)` becomes `k % n` for an
  arbitrary caller supplied `k`.
-/

namespace Checkers

/-- Color of a piece / player, from `enum Color` in board.rs. -/
inductive Color where
  | Black : Color
  | Red : Color
  deriving DecidableEq

/-- Contents of one square, from `enum Piece` in board.rs: a piece of some
color with a king flag, or an empty square. -/
inductive Piece where
  | Filled : Color → Bool → Piece
  | Empty : Piece
  deriving DecidableEq

/-- An action, from `enum Action` in board.rs: `Move(x, y, nx, ny)` or
`Capture(x, y, nx, ny, cx, cy)` where `(cx, cy)` is the captured square. -/
inductive Action where
  | Move : Nat → Nat → Nat → Nat → Action
  | Capture : Nat → Nat → Nat → Nat → Nat → Nat → Action
  deriving DecidableEq

/-- The board, from `struct Board` in board.rs: 64 squares indexed by
`y * 8 + x`, the side to move, and the side that moved last.  The Rust
field has type `[Piece; 64]`; the length-64 invariant is `Board.WF`. -/
structure Board where
  internal_state : List Piece
  current_turn : Color
  last_turn : Option Color
  deriving DecidableEq

/-- The Rust array type `[Piece; 64]` forces exactly 64 squares. -/
def Board.WF (b : Board) : Prop := b.internal_state.length = 64

instance (b : Board) : Decidable b.WF := by unfold Board.WF; infer_instance

/-- `opposite` from board.rs. -/
def Color.opposite : Color → Color
  | Color.Black => Color.Red
  | Color.Red => Color.Black

/-- Cast of an integer to a 64-bit `usize`, as in `(expr as usize)`. -/
def usizeCast (i : Int) : Nat := (i % (2 : Int) ^ 64).toNat

/-- `KING_MOVES` from board.rs. -/
def KING_MOVES : List (Int × Int) := [(1, 1), (-1, 1), (1, -1), (-1, -1)]

/-- `BLACK_MOVES` from board.rs. -/
def BLACK_MOVES : List (Int × Int) := [(1, 1), (-1, 1)]

/-- `RED_MOVES` from board.rs. -/
def RED_MOVES : List (Int × Int) := [(1, -1), (-1, -1)]

/-- `Piece::get_dirs` from board.rs, with the `MoveType` wrapper collapsed
to the direction list that the callers iterate over (`MoveType::Empty`
iterates over the empty array). -/
def Piece.get_dirs : Piece → List (Int × Int)
  | Piece.Filled _ true => KING_MOVES
  | Piece.Filled Color.Red false => RED_MOVES
  | Piece.Filled Color.Black false => BLACK_MOVES
  | Piece.Empty => []

/-- `Piece::king_y_con` from board.rs: the promotion row of a piece. -/
def Piece.king_y_con : Piece → Nat
  | Piece.Filled Color.Black _ => 7
  | Piece.Filled Color.Red _ => 0
  | Piece.Empty => 4

/-- `Board::get_piece` from board.rs: `None` iff a coordinate is `≥ 8`,
otherwise the occupant.  Under `Board.WF` the `getD` default is never
used because `y * 8 + x < 64`. -/
def Board.get_piece (b : Board) (x y : Nat) : Option Piece :=
  if 8 ≤ x ∨ 8 ≤ y then none
  else some (b.internal_state.getD (y * 8 + x) Piece.Empty)

/-- `Board::set_piece` from board.rs: writes square `y * 8 + x` with no
bounds check.  Rust panics when `y * 8 + x ≥ 64`; `List.set` is a no-op
there, and every use in this development keeps `x, y < 8`. -/
def Board.set_piece (b : Board) (x y : Nat) (piece : Piece) : Board :=
  { b with internal_state := b.internal_state.set (y * 8 + x) piece }

/-- `Board::new` from board.rs: an all-empty board. -/
def Board.new (starting_color : Color) : Board :=
  { internal_state := List.replicate 64 Piece.Empty
    current_turn := starting_color
    last_turn := none }

/-- `STATIC_SIZE` from board.rs. -/
def STATIC_SIZE : Nat := 25

/-- `StaticList` from board.rs: a fixed array of 25 `Option` slots plus a
length counter.  `mem.length = 25` mirrors the Rust array type. -/
structure StaticList (T : Type) where
  mem : List (Option T)
  len : Nat
  deriving DecidableEq

/-- `StaticList::new`. -/
def StaticList.new {T : Type} : StaticList T :=
  { mem := List.replicate STATIC_SIZE none, len := 0 }

/-- `StaticList::push`: panics (`none`) when `len ≥ 25`, otherwise writes
slot `len` and increments `len`. -/
def StaticList.push {T : Type} (l : StaticList T) (item : T) :
    Option (StaticList T) :=
  if STATIC_SIZE ≤ l.len then none
  else some { mem := l.mem.set l.len (some item), len := l.len + 1 }

/-- `StaticList::clear`: resets `len` only; the slots are kept. -/
def StaticList.clear {T : Type} (l : StaticList T) : StaticList T :=
  { l with len := 0 }

/-- `StaticList::get`: `self.mem[index].unwrap()`.  The result is `none`
(a panic) when the index is outside the 25-slot array or the slot was
never written; note that `len` is not consulted. -/
def StaticList.get {T : Type} (l : StaticList T) (i : Nat) : Option T :=
  l.mem.getD i none

/-- `MoveMemHandler` from board.rs: separate capture and move lists. -/
structure MoveMemHandler where
  captures : StaticList Action
  moves : StaticList Action
  deriving DecidableEq

/-- Both backing arrays have their Rust length 25. -/
def MoveMemHandler.WF (mm : MoveMemHandler) : Prop :=
  mm.captures.mem.length = STATIC_SIZE ∧ mm.moves.mem.length = STATIC_SIZE

instance (mm : MoveMemHandler) : Decidable mm.WF := by
  unfold MoveMemHandler.WF; infer_instance

/-- `MoveMemHandler::new`. -/
def MoveMemHandler.new : MoveMemHandler :=
  { captures := StaticList.new, moves := StaticList.new }

/-- `MoveMemHandler::contains_capture`. -/
def MoveMemHandler.contains_capture (mm : MoveMemHandler) : Bool :=
  0 < mm.captures.len

/-- `MoveMemHandler::add_capture`. -/
def MoveMemHandler.add_capture (mm : MoveMemHandler) (a : Action) :
    Option MoveMemHandler :=
  (mm.captures.push a).map (fun c => { mm with captures := c })

/-- `MoveMemHandler::add_move`: pushes only while no capture has been
recorded yet. -/
def MoveMemHandler.add_move (mm : MoveMemHandler) (a : Action) :
    Option MoveMemHandler :=
  if mm.contains_capture then some mm
  else (mm.moves.push a).map (fun m => { mm with moves := m })

/-- `MoveMemHandler::add_action`. -/
def MoveMemHandler.add_action (mm : MoveMemHandler) (a : Action) :
    Option MoveMemHandler :=
  match a with
  | Action.Capture _ _ _ _ _ _ => mm.add_capture a
  | Action.Move _ _ _ _ => mm.add_move a

/-- `MoveMemHandler::clear`. -/
def MoveMemHandler.clear (mm : MoveMemHandler) : MoveMemHandler :=
  { captures := mm.captures.clear, moves := mm.moves.clear }

/-- `MoveMemHandler::has_actions`. -/
def MoveMemHandler.has_actions (mm : MoveMemHandler) : Bool :=
  0 < mm.captures.len || 0 < mm.moves.len

/-- `MoveMemHandler::len`. -/
def MoveMemHandler.len (mm : MoveMemHandler) : Nat :=
  if mm.contains_capture then mm.captures.len else mm.moves.len

/-- `MoveMemHandler::get`. -/
def MoveMemHandler.get (mm : MoveMemHandler) (i : Nat) : Option Action :=
  if mm.contains_capture then mm.captures.get i else mm.moves.get i

/-- `MoveMemHandler::get_random_move` with the random index drawn by
`gen_range(0..len)` modelled as `n % len`; panics (`none`) when both
lists are empty. -/
def MoveMemHandler.get_random_move (mm : MoveMemHandler) (n : Nat) :
    Option Action :=
  if mm.contains_capture then mm.captures.get (n % mm.captures.len)
  else if 0 < mm.moves.len then mm.moves.get (n % mm.moves.len)
  else none

/-- `Board::get_action` from board.rs: for a piece at `(x, y)` and a
direction `(xd, yd)`, the simple move into the adjacent square when it is
empty, the jump over an adjacent enemy into an empty landing square, and
nothing otherwise. -/
def Board.get_action (b : Board) (x y : Nat) (xd yd : Int) (piece : Piece) :
    Option Action :=
  let cx := usizeCast ((x : Int) + xd)
  let cy := usizeCast ((y : Int) + yd)
  let mx := usizeCast ((x : Int) + xd * 2)
  let my := usizeCast ((y : Int) + yd * 2)
  match piece with
  | Piece.Filled self_color _ =>
    match b.get_piece cx cy with
    | some Piece.Empty => some (Action.Move x y cx cy)
    | some (Piece.Filled cap_color _) =>
      if cap_color ≠ self_color then
        match b.get_piece mx my with
        | some Piece.Empty => some (Action.Capture x y mx my cx cy)
        | some (Piece.Filled _ _) => none
        | none => none
      else none
    | none => none
  | Piece.Empty => none

/-- `Board::extract_actions` from board.rs. -/
def Board.extract_actions (b : Board) (x y : Nat) (mm : MoveMemHandler)
    (xd yd : Int) (piece : Piece) : Option MoveMemHandler :=
  match b.get_action x y xd yd piece with
  | some a => mm.add_action a
  | none => some mm

/-- The direction loop inside `Board::get_actions`, one step per
direction. -/
def Board.dirsFold (b : Board) (x y : Nat) (p : Piece) :
    List (Int × Int) → MoveMemHandler → Option MoveMemHandler
  | [], mm => some mm
  | d :: rest, mm =>
    match b.extract_actions x y mm d.1 d.2 p with
    | some mm2 => b.dirsFold x y p rest mm2
    | none => none

/-- `Board::get_actions` from board.rs: unwraps the occupant and folds
`extract_actions` over its direction list. -/
def Board.get_actions (b : Board) (x y : Nat) (mm : MoveMemHandler) :
    Option MoveMemHandler :=
  match b.get_piece x y with
  | some piece => b.dirsFold x y piece piece.get_dirs mm
  | none => none

/-- The squares `(x, y)` in the row-major order of the two nested loops
`for y in 0..8 { for x in 0..8 { ... } }` of `Board::get_all_actions`. -/
def coordScan : List (Nat × Nat) :=
  (List.range 64).map (fun i => (i % 8, i / 8))

/-- The loop body of `Board::get_all_actions` at one square. -/
def Board.scanStep (b : Board) (mm : MoveMemHandler) (xy : Nat × Nat) :
    Option MoveMemHandler :=
  match b.get_piece xy.1 xy.2 with
  | some (Piece.Filled c _) =>
    if c = b.current_turn then b.get_actions xy.1 xy.2 mm else some mm
  | some Piece.Empty => some mm
  | none => none

/-- The square loop of `Board::get_all_actions`. -/
def Board.scanFold (b : Board) :
    List (Nat × Nat) → MoveMemHandler → Option MoveMemHandler
  | [], mm => some mm
  | xy :: rest, mm =>
    match b.scanStep mm xy with
    | some mm2 => b.scanFold rest mm2
    | none => none

/-- `Board::get_all_actions` from board.rs: clear the handler, then scan
all 64 squares row-major, collecting the actions of the side to move. -/
def Board.get_all_actions (b : Board) (mm : MoveMemHandler) :
    Option MoveMemHandler :=
  b.scanFold coordScan mm.clear

/-- `Board::piece_has_capture` from board.rs: whether the piece at
`(x, y)` has a capture in one of its directions. -/
def Board.piece_has_capture (b : Board) (x y : Nat) : Bool :=
  match b.get_piece x y with
  | some p =>
    p.get_dirs.any (fun d =>
      match b.get_action x y d.1 d.2 p with
      | some (Action.Capture _ _ _ _ _ _) => true
      | _ => false)
  | none => false

/-- `Board::king_piece` from board.rs: crowns the occupant of `(x, y)`;
panics (`none`) when the square is empty or the index leaves the array. -/
def Board.king_piece (b : Board) (x y : Nat) : Option Board :=
  match b.internal_state[y * 8 + x]? with
  | some (Piece.Filled color _) =>
    some { b with internal_state :=
      b.internal_state.set (y * 8 + x) (Piece.Filled color true) }
  | some Piece.Empty => none
  | none => none

/-- `Board::execute_action` from board.rs.  For a `Move`: vacate the
source, occupy the destination, promote on the back rank, record
`last_turn` and flip `current_turn`.  For a `Capture`: also vacate the
captured square, and only set `last_turn` (the code never flips
`current_turn` here) when the moved piece has no further capture. -/
def Board.execute_action (b : Board) (a : Action) : Option Board :=
  match a with
  | Action.Move x y nx ny =>
    (b.get_piece x y).bind (fun piece =>
      ((if ny = piece.king_y_con
        then ((b.set_piece x y Piece.Empty).set_piece nx ny piece).king_piece nx ny
        else some ((b.set_piece x y Piece.Empty).set_piece nx ny piece))).bind
      (fun b2 =>
        some { b2 with last_turn := some b.current_turn
                       current_turn := b.current_turn.opposite }))
  | Action.Capture x y nx ny cx cy =>
    (b.get_piece x y).bind (fun piece =>
      ((if ny = piece.king_y_con
        then (((b.set_piece x y Piece.Empty).set_piece cx cy
                Piece.Empty).set_piece nx ny piece).king_piece nx ny
        else some (((b.set_piece x y Piece.Empty).set_piece cx cy
                Piece.Empty).set_piece nx ny piece))).bind
      (fun b2 =>
        if b2.piece_has_capture nx ny then some b2
        else some { b2 with last_turn := some b.current_turn }))

/-- `Board::make_random_move` from board.rs, with the random index
modelled by the oracle `n`: returns the opponent of the side to move when
no action exists (no mutation), otherwise executes one action from the
handler and returns nothing. -/
def Board.make_random_move (b : Board) (mm : MoveMemHandler) (n : Nat) :
    Option (Option Color × Board × MoveMemHandler) :=
  match b.get_all_actions mm.clear with
  | none => none
  | some mm1 =>
    if mm1.has_actions = false then
      some (some b.current_turn.opposite, b, mm1)
    else
      match mm1.get_random_move n with
      | none => none
      | some act =>
        match b.execute_action act with
        | none => none
        | some b2 => some (none, b2, mm1.clear)

/-- One row of `Board::reset`: the writes of
`for x in 0..8 { if (x + y) % 2 == 0 { set_piece(x, y, p) } }`. -/
def rowWrites (y : Nat) (p : Piece) : List (Nat × Nat × Piece) :=
  (List.range 8).filterMap
    (fun x => if (x + y) % 2 = 0 then some (x, y, p) else none)

/-- The full write sequence of `Board::reset`: Black men on rows 0, 1, 2,
then Red men on rows 5, 6, 7, in loop order. -/
def resetWrites : List (Nat × Nat × Piece) :=
  (((List.range 3).map
      (fun y => rowWrites y (Piece.Filled Color.Black false))).flatten) ++
  (((List.range' 5 3).map
      (fun y => rowWrites y (Piece.Filled Color.Red false))).flatten)

/-- Sequential application of a list of `set_piece` writes. -/
def applyWrites (W : List (Nat × Nat × Piece)) (b : Board) : Board :=
  W.foldl (fun acc w => acc.set_piece w.1 w.2.1 w.2.2) b

/-- `Board::reset` from board.rs, as the fold of its write sequence. -/
def Board.reset (b : Board) : Board :=
  applyWrites resetWrites b

/-- The landing square of an action. -/
def Action.dst : Action → Nat × Nat
  | Action.Move _ _ nx ny => (nx, ny)
  | Action.Capture _ _ nx ny _ _ => (nx, ny)

/-- Whether an action value is a capture. -/
def Action.isCapture : Action → Bool
  | Action.Capture _ _ _ _ _ _ => true
  | Action.Move _ _ _ _ => false

/-- Whether an action value is a simple move. -/
def Action.isMove : Action → Bool
  | Action.Capture _ _ _ _ _ _ => false
  | Action.Move _ _ _ _ => true

/-- The piece at `(x, y)` has some action, phrased with the source's
`get_action` over its direction list. -/
def Board.squareHasAction (b : Board) (x y : Nat) : Bool :=
  match b.get_piece x y with
  | some p => p.get_dirs.any (fun d => (b.get_action x y d.1 d.2 p).isSome)
  | none => false

/-- The square holds a piece of the side to move that has a capture. -/
def Board.scanCapAt (b : Board) (xy : Nat × Nat) : Bool :=
  match b.get_piece xy.1 xy.2 with
  | some (Piece.Filled c _) => c = b.current_turn && b.piece_has_capture xy.1 xy.2
  | _ => false

/-- The square holds a piece of the side to move that has some action. -/
def Board.scanActAt (b : Board) (xy : Nat × Nat) : Bool :=
  match b.get_piece xy.1 xy.2 with
  | some (Piece.Filled c _) => c = b.current_turn && b.squareHasAction xy.1 xy.2
  | _ => false

/-- The side to move has a capture somewhere on the board, phrased with
the source's own `piece_has_capture` square test. -/
def Board.hasBoardCapture (b : Board) : Bool :=
  coordScan.any b.scanCapAt

/-- The side to move has at least one legal action somewhere. -/
def Board.hasAnyAction (b : Board) : Bool :=
  coordScan.any b.scanActAt

/-- The action is produced by the generator: some square holds a piece of
the side to move for which `get_action` yields it in one of the piece's
directions. -/
def Board.genAction (b : Board) (a : Action) : Prop :=
  ∃ x y p, b.get_piece x y = some p ∧
    (∃ c k, p = Piece.Filled c k ∧ c = b.current_turn) ∧
    ∃ d, d ∈ p.get_dirs ∧ b.get_action x y d.1 d.2 p = some a

/-- The slots below `len` are set and satisfy `P` (proof-side invariant
of a `StaticList` as filled by the generator). -/
def StaticList.SlotsOk {T : Type} (P : T → Prop) (l : StaticList T) : Prop :=
  l.mem.length = STATIC_SIZE ∧ ∀ i, i < l.len → ∃ a, l.get i = some a ∧ P a

/-- Proof-side invariant of the handler during a scan: capture slots hold
generated captures, move slots hold generated simple moves. -/
def handlerInv (b : Board) (mm : MoveMemHandler) : Prop :=
  mm.captures.SlotsOk (fun a => a.isCapture = true ∧ b.genAction a) ∧
  mm.moves.SlotsOk (fun a => a.isMove = true ∧ b.genAction a)

/-! ### MCTS tree (montecarlo.rs)

The arena of `indextree` nodes with parent links is embedded as a
recursive tree; a `NodeState` keeps the `sims`, `wins` and
`action_taken` fields of montecarlo.rs (the `board` and `loc` handles
become the board stored at the node and the tree position itself).  The
ambient randomness and the floating point UCT descent are oracle
parameters: one iteration of `Tree::expand_tree` takes a selection
chooser `σ` (the child index taken at each depth — the UCT argmax is one
such chooser), the rollout pick `ρ` of `gen_range`, and the playout
winner `w` produced by the random game of `NodeState::play_out`. -/

/-- `NodeState` from montecarlo.rs (statistics fields). -/
structure NodeState where
  sims : Int
  wins : Int
  action_taken : Option Action
  deriving DecidableEq

/-- A search tree node: its state, its board snapshot, its children. -/
inductive MCTree where
  | node : NodeState → Board → List MCTree → MCTree

/-- The `sims` counter at the root of a subtree. -/
def MCTree.rootSims : MCTree → Int
  | MCTree.node st _ _ => st.sims

/-- Number of immediate children. -/
def MCTree.childCount : MCTree → Nat
  | MCTree.node _ _ cs => cs.length

/-- Sum of `sims` over the immediate children. -/
def MCTree.childSimsSum : MCTree → Int
  | MCTree.node _ _ cs => (cs.map MCTree.rootSims).sum

/-- One visit of `NodeState::back_propagate` at a node: `sims` always
increments, `wins` increments iff the node's board records the winner as
the side that moved last. -/
def backPropStep (w : Color) (st : NodeState) (bo : Board) : NodeState :=
  { st with sims := st.sims + 1
            wins := st.wins + (if bo.last_turn = some w then 1 else 0) }

/-- `back_propagate` applied to the root of one subtree. -/
def MCTree.visit (w : Color) : MCTree → MCTree
  | MCTree.node st bo cs => MCTree.node (backPropStep w st bo) bo cs

/-- `NodeState::new_child` from montecarlo.rs: clone the board, execute
the action, start with zeroed statistics. -/
def NodeState.new_child (bo : Board) (a : Action) : Option MCTree :=
  (bo.execute_action a).map (fun b2 => MCTree.node ⟨0, 0, some a⟩ b2 [])

/-- Reading the filled handler back as a list, as `expand` does with
`moves.get(index)` for `index in 0..moves.len()`. -/
def MoveMemHandler.action_list (mm : MoveMemHandler) : Option (List Action) :=
  (List.range mm.len).mapM (fun i => mm.get i)

/-- The action list of a board position (the `get_all_actions()` call of
montecarlo.rs, which allocates its own handler). -/
def Board.all_actions (bo : Board) : Option (List Action) :=
  (bo.get_all_actions MoveMemHandler.new).bind MoveMemHandler.action_list

/-- One iteration of `Tree::expand_tree` at depth `d`, carried out on the
subtree rooted at the current node: descend along the chooser `σ` to a
leaf (selection), create one child per action of the leaf's board
(expansion), pick child `ρ % n` when children exist (rollout-node
choice), and increment the statistics of the rollout node and of every
node on the descent path (backpropagation of the playout winner `w`). -/
def MCTree.expand_tree (σ : Nat → Nat) (d : Nat) (ρ : Nat) (w : Color) :
    MCTree → Option MCTree
  | MCTree.node st bo [] =>
    (bo.all_actions).bind (fun acts =>
      (acts.mapM (NodeState.new_child bo)).bind (fun cs =>
        match cs with
        | [] => some (MCTree.node (backPropStep w st bo) bo [])
        | c :: cs2 =>
          some (MCTree.node (backPropStep w st bo) bo
            ((c :: cs2).set (ρ % (c :: cs2).length)
              (MCTree.visit w ((c :: cs2).getD (ρ % (c :: cs2).length) c))))))
  | MCTree.node st bo (c :: cs) =>
    (MCTree.expand_tree σ (d + 1) ρ w
        ((c :: cs).getD (σ d % (c :: cs).length) c)).map
      (fun c2 => MCTree.node (backPropStep w st bo) bo
        ((c :: cs).set (σ d % (c :: cs).length) c2))
termination_by t => sizeOf t
decreasing_by
  simp_wf
  have hlt : σ d % (c :: cs).length < (c :: cs).length :=
    Nat.mod_lt _ (by simp)
  have hmem : (c :: cs).getD (σ d % (c :: cs).length) c ∈ c :: cs := by
    rw [List.getD_eq_getElem _ _ hlt]
    exact List.getElem_mem hlt
  have hsz := List.sizeOf_lt_of_mem hmem
  simp only [List.getD, List.get?_eq_getElem?, List.length_cons] at hsz
  simp only [List.cons.sizeOf_spec, List.length_cons] at hsz ⊢
  omega

/-- `N` iterations of `expand_tree`, with per-iteration oracles. -/
def MCTree.run_search (ors : Nat → (Nat → Nat) × Nat × Color) :
    Nat → MCTree → Option MCTree
  | 0, t => some t
  | Nat.succ n, t =>
    (MCTree.expand_tree (ors n).1 0 (ors n).2.1 (ors n).2.2 t).bind
      (MCTree.run_search ors n)

/-! ### Concrete boards used as witnesses and counterexamples -/

/-- Builds a 64-square board from a placement list. -/
def boardOf (l : List (Nat × Nat × Piece)) (c : Color) (lt : Option Color) :
    Board :=
  { internal_state := (List.range 64).map (fun i =>
      match l.find? (fun w => w.2.1 * 8 + w.1 = i) with
      | some w => w.2.2
      | none => Piece.Empty)
    current_turn := c
    last_turn := lt }

/-- A mid-game board with a stray red king on row 3, used to observe that
`reset` does not clear rows 3 and 4. -/
def junkBoard : Board := (Board.new Color.Red).set_piece 3 3 (Piece.Filled Color.Red true)

/-- A black man on (2, 2) can capture the red man on (3, 3), landing on
(4, 4) with no further capture available. -/
def captureBugBoard : Board :=
  boardOf [(2, 2, Piece.Filled Color.Black false),
           (3, 3, Piece.Filled Color.Red false)] Color.Black none

/-- Seven black kings in open space: 28 simple moves, which overflows the
25-slot move list during `get_all_actions`. -/
def overflowBoard : Board :=
  boardOf [(1, 1, Piece.Filled Color.Black true),
           (3, 1, Piece.Filled Color.Black true),
           (5, 1, Piece.Filled Color.Black true),
           (1, 3, Piece.Filled Color.Black true),
           (3, 3, Piece.Filled Color.Black true),
           (5, 3, Piece.Filled Color.Black true),
           (1, 5, Piece.Filled Color.Black true)] Color.Black none

/-- A lone black man on (0, 0), Black to move: exactly one legal action. -/
def oneManBoard : Board :=
  boardOf [(0, 0, Piece.Filled Color.Black false)] Color.Black none

/-- The position reached from `oneManBoard` by `Move(0,0,1,1)`: Red to
move with no pieces. -/
def oneManBoardAfter : Board :=
  boardOf [(1, 1, Piece.Filled Color.Black false)] Color.Red (some Color.Black)

/-- A `StaticList` holding a stale element: one push followed by `clear`. -/
def staleDemo : StaticList Nat :=
  (((StaticList.new : StaticList Nat).push 42).getD StaticList.new).clear

/-- A black man on (3, 6), one diagonal step from the promotion row. -/
def promoBoard : Board :=
  boardOf [(3, 6, Piece.Filled Color.Black false)] Color.Black none

/-- The board after the promoting move `(3,6) → (4,7)`. -/
def promoBoardAfter : Board :=
  (promoBoard.execute_action (Action.Move 3 6 4 7)).getD promoBoard

/-- Whether an optional action is a capture. -/
def optIsCapture : Option Action → Bool
  | some a => a.isCapture
  | none => false

/-- The handler produced by scanning `captureBugBoard`. -/
def wMM : MoveMemHandler :=
  (captureBugBoard.get_all_actions MoveMemHandler.new).getD MoveMemHandler.new

/-- An expanded root: `oneManBoard` with its single child, statistics
zeroed. -/
def wTree0 : MCTree :=
  MCTree.node ⟨0, 0, none⟩ oneManBoard
    [MCTree.node ⟨0, 0, some (Action.Move 0 0 1 1)⟩ oneManBoardAfter []]

/-- `wTree0` after one search iteration: the path root → child has been
visited once, and the child (a terminal position for Red) was credited
with the Black win. -/
def wTree1 : MCTree :=
  MCTree.node ⟨1, 0, none⟩ oneManBoard
    [MCTree.node ⟨1, 1, some (Action.Move 0 0 1 1)⟩ oneManBoardAfter []]

/-- Constant oracles: always descend to child 0, roll out child 0, and
report Black as the playout winner. -/
def wOracles : Nat → (Nat → Nat) × Nat × Color :=
  fun _ => (fun _ => 0, 0, Color.Black)

/-! ### Basic lemmas about squares and writes -/

theorem List.getD_set_of_ne {α : Type} (l : List α) (i j : Nat) (a d : α)
    (h : i ≠ j) : (l.set i a).getD j d = l.getD j d := by
  simp [List.getD, List.getElem?_set_ne h]

theorem List.getD_set_self {α : Type} (l : List α) (i : Nat) (a d : α)
    (h : i < l.length) : (l.set i a).getD i d = a := by
  simp [List.getD, List.getElem?_set_eq_of_lt a h]

theorem Board.WF.set_piece {b : Board} (h : b.WF) (x y : Nat) (p : Piece) :
    (b.set_piece x y p).WF := by
  simpa [Board.set_piece, Board.WF] using h

theorem Board.get_piece_eq_none_iff (b : Board) (x y : Nat) :
    b.get_piece x y = none ↔ 8 ≤ x ∨ 8 ≤ y := by
  unfold Board.get_piece
  split <;> simp_all

theorem Board.get_piece_set_self {b : Board} (hwf : b.WF) {x y : Nat}
    (hx : x < 8) (hy : y < 8) (p : Piece) :
    (b.set_piece x y p).get_piece x y = some p := by
  unfold Board.get_piece Board.set_piece
  have hlt : y * 8 + x < b.internal_state.length := by
    rw [hwf]; omega
  have h8 : ¬(8 ≤ x ∨ 8 ≤ y) := by omega
  simp [h8, List.getElem?_set_eq_of_lt _ hlt]

theorem Board.get_piece_set_of_ne {b : Board} {x y u v : Nat}
    (hx : x < 8) (hy : y < 8) (hne : ¬(u = x ∧ v = y)) (p : Piece) :
    (b.set_piece x y p).get_piece u v = b.get_piece u v := by
  unfold Board.get_piece Board.set_piece
  by_cases h8 : 8 ≤ u ∨ 8 ≤ v
  · simp [h8]
  · have hptr : y * 8 + x ≠ v * 8 + u := by omega
    simp only [List.getD_set_of_ne _ _ _ _ _ hptr]

theorem Board.set_piece_current_turn (b : Board) (x y : Nat) (p : Piece) :
    (b.set_piece x y p).current_turn = b.current_turn := rfl

theorem Board.set_piece_last_turn (b : Board) (x y : Nat) (p : Piece) :
    (b.set_piece x y p).last_turn = b.last_turn := rfl

theorem applyWrites_current_turn (W : List (Nat × Nat × Piece)) (b : Board) :
    (applyWrites W b).current_turn = b.current_turn := by
  induction W generalizing b with
  | nil => rfl
  | cons w rest ih => simpa [applyWrites, List.foldl_cons] using ih (b.set_piece w.1 w.2.1 w.2.2)

theorem applyWrites_last_turn (W : List (Nat × Nat × Piece)) (b : Board) :
    (applyWrites W b).last_turn = b.last_turn := by
  induction W generalizing b with
  | nil => rfl
  | cons w rest ih => simpa [applyWrites, List.foldl_cons] using ih (b.set_piece w.1 w.2.1 w.2.2)

theorem applyWrites_WF {W : List (Nat × Nat × Piece)} {b : Board} (hwf : b.WF) :
    (applyWrites W b).WF := by
  induction W generalizing b with
  | nil => exact hwf
  | cons w rest ih =>
    simpa [applyWrites, List.foldl_cons] using ih (hwf.set_piece w.1 w.2.1 w.2.2)

theorem applyWrites_frame {W : List (Nat × Nat × Piece)} {b : Board} {u v : Nat}
    (hW : ∀ w ∈ W, w.1 < 8 ∧ w.2.1 < 8)
    (hnot : ∀ w ∈ W, ¬(u = w.1 ∧ v = w.2.1)) :
    (applyWrites W b).get_piece u v = b.get_piece u v := by
  induction W generalizing b with
  | nil => rfl
  | cons w rest ih =>
    have hw := hW w (List.mem_cons_self _ _)
    have step : (b.set_piece w.1 w.2.1 w.2.2).get_piece u v = b.get_piece u v :=
      Board.get_piece_set_of_ne hw.1 hw.2 (hnot w (List.mem_cons_self _ _)) _
    calc (applyWrites (w :: rest) b).get_piece u v
        = (applyWrites rest (b.set_piece w.1 w.2.1 w.2.2)).get_piece u v := rfl
      _ = (b.set_piece w.1 w.2.1 w.2.2).get_piece u v :=
          ih (fun w2 h2 => hW w2 (List.mem_cons_of_mem _ h2))
             (fun w2 h2 => hnot w2 (List.mem_cons_of_mem _ h2))
      _ = b.get_piece u v := step

theorem applyWrites_written {W : List (Nat × Nat × Piece)} {b : Board}
    {u v : Nat} {p : Piece} (hwf : b.WF)
    (hW : ∀ w ∈ W, w.1 < 8 ∧ w.2.1 < 8)
    (hnodup : (W.map fun w => (w.1, w.2.1)).Nodup)
    (hin : (u, v, p) ∈ W) :
    (applyWrites W b).get_piece u v = some p := by
  induction W generalizing b with
  | nil => cases hin
  | cons w rest ih =>
    rcases List.mem_cons.mp hin with heq | htail
    · subst heq
      have hw := hW (u, v, p) (List.mem_cons_self _ _)
      have hrest : ∀ w2 ∈ rest, ¬(u = w2.1 ∧ v = w2.2.1) := by
        intro w2 h2 hc
        have : (u, v) ∈ rest.map fun w => (w.1, w.2.1) :=
          List.mem_map.mpr ⟨w2, h2, by simp [hc.1.symm, hc.2.symm]⟩
        have hnd := (List.nodup_cons.mp hnodup).1
        exact hnd this
      calc (applyWrites ((u, v, p) :: rest) b).get_piece u v
          = (applyWrites rest (b.set_piece u v p)).get_piece u v := rfl
        _ = (b.set_piece u v p).get_piece u v :=
            applyWrites_frame (fun w2 h2 => hW w2 (List.mem_cons_of_mem _ h2)) hrest
        _ = some p := Board.get_piece_set_self hwf hw.1 hw.2 p
    · exact ih (hwf.set_piece w.1 w.2.1 w.2.2)
        (fun w2 h2 => hW w2 (List.mem_cons_of_mem _ h2))
        (List.nodup_cons.mp hnodup).2 htail

/-! ### Decidable facts about the reset write sequence -/

theorem resetWrites_bounds : ∀ w ∈ resetWrites, w.1 < 8 ∧ w.2.1 < 8 := by decide

theorem resetWrites_target :
    ∀ w ∈ resetWrites, (w.1 + w.2.1) % 2 = 0 ∧ (w.2.1 ≤ 2 ∨ 5 ≤ w.2.1) := by decide

theorem resetWrites_nodup : (resetWrites.map fun w => (w.1, w.2.1)).Nodup := by decide

theorem resetWrites_mem_black :
    ∀ x < 8, ∀ y < 8, (x + y) % 2 = 0 → y ≤ 2 →
      (x, y, Piece.Filled Color.Black false) ∈ resetWrites := by
  have h : ∀ x ∈ List.range 8, ∀ y ∈ List.range 8, ((x + y) % 2 = 0 → y ≤ 2 →
      (x, y, Piece.Filled Color.Black false) ∈ resetWrites) := by decide
  intro x hx y hy
  exact h x (List.mem_range.mpr hx) y (List.mem_range.mpr hy)

theorem resetWrites_mem_red :
    ∀ x < 8, ∀ y < 8, (x + y) % 2 = 0 → 5 ≤ y →
      (x, y, Piece.Filled Color.Red false) ∈ resetWrites := by
  have h : ∀ x ∈ List.range 8, ∀ y ∈ List.range 8, ((x + y) % 2 = 0 → 5 ≤ y →
      (x, y, Piece.Filled Color.Red false) ∈ resetWrites) := by decide
  intro x hx y hy
  exact h x (List.mem_range.mpr hx) y (List.mem_range.mpr hy)

/-! ### Claim theorems: board primitives -/

/-- C10: after `set_piece(x, y, p)` with `x, y < 8`, `get_piece(x, y)`
returns `p`, every other in-bounds coordinate reads as before, and
`get_piece` returns `None` exactly on out-of-range coordinates. -/
theorem get_set_piece_spec (b : Board) (hwf : b.WF) (x y : Nat) (p : Piece)
    (hx : x < 8) (hy : y < 8) :
    (b.set_piece x y p).get_piece x y = some p ∧
    (∀ u v, u < 8 → v < 8 → ¬(u = x ∧ v = y) →
      (b.set_piece x y p).get_piece u v = b.get_piece u v) ∧
    (∀ u v, b.get_piece u v = none ↔ 8 ≤ u ∨ 8 ≤ v) := by
  refine ⟨Board.get_piece_set_self hwf hx hy p, ?_, ?_⟩
  · intro u v _ _ hne
    exact Board.get_piece_set_of_ne hx hy hne p
  · intro u v
    exact Board.get_piece_eq_none_iff b u v

/-- Witness for C10 at a concrete board and coordinates. -/
theorem get_set_piece_spec_witness :
    ((Board.new Color.Black).set_piece 2 3 (Piece.Filled Color.Red true)).get_piece 2 3 =
      some (Piece.Filled Color.Red true) :=
  (get_set_piece_spec (Board.new Color.Black) (by decide) 2 3
    (Piece.Filled Color.Red true) (by decide) (by decide)).1

/-- C9: `reset` writes only to the squares of rows 0 to 2 and 5 to 7 with
even coordinate sum; every other square and both turn fields are left
unchanged, so stale pieces outside the starting rows survive. -/
theorem reset_frame_spec (b : Board) (hwf : b.WF) :
    (b.reset).current_turn = b.current_turn ∧
    (b.reset).last_turn = b.last_turn ∧
    ∀ x y, x < 8 → y < 8 →
      (¬((x + y) % 2 = 0 ∧ (y ≤ 2 ∨ 5 ≤ y)) →
        (b.reset).get_piece x y = b.get_piece x y) ∧
      ((x + y) % 2 = 0 → y ≤ 2 →
        (b.reset).get_piece x y = some (Piece.Filled Color.Black false)) ∧
      ((x + y) % 2 = 0 → 5 ≤ y →
        (b.reset).get_piece x y = some (Piece.Filled Color.Red false)) := by
  refine ⟨applyWrites_current_turn _ _, applyWrites_last_turn _ _, ?_⟩
  intro x y hx hy
  refine ⟨?_, ?_, ?_⟩
  · intro hnt
    apply applyWrites_frame resetWrites_bounds
    intro w hw hc
    have ht := resetWrites_target w hw
    rcases hc with ⟨h1, h2⟩
    subst h1; subst h2
    exact hnt ⟨ht.1, ht.2⟩
  · intro hpar hrow
    exact applyWrites_written hwf resetWrites_bounds resetWrites_nodup
      (resetWrites_mem_black x hx y hy hpar hrow)
  · intro hpar hrow
    exact applyWrites_written hwf resetWrites_bounds resetWrites_nodup
      (resetWrites_mem_red x hx y hy hpar hrow)

/-- Witness for C9: a stray red king on (3, 3) survives `reset`. -/
theorem reset_frame_spec_witness :
    (junkBoard.reset).get_piece 3 3 = junkBoard.get_piece 3 3 :=
  ((reset_frame_spec junkBoard (by decide)).2.2 3 3 (by decide) (by decide)).1
    (by decide)

/-- C8: after `reset` of a freshly constructed board, exactly 12 black
men sit on the even squares of rows 0 to 2, exactly 12 red men on the
even squares of rows 5 to 7, and every other square is empty. -/
theorem reset_initial_spec (c : Color) :
    (((Board.new c).reset).internal_state.length = 64) ∧
    ((List.range 64).countP (fun i =>
       decide (((Board.new c).reset).internal_state.getD i Piece.Empty =
         Piece.Filled Color.Black false)) = 12) ∧
    ((List.range 64).countP (fun i =>
       decide (((Board.new c).reset).internal_state.getD i Piece.Empty =
         Piece.Filled Color.Red false)) = 12) ∧
    (∀ x ∈ List.range 8, ∀ y ∈ List.range 8,
      ((Board.new c).reset).get_piece x y =
        (if (x + y) % 2 = 0 ∧ y ≤ 2 then some (Piece.Filled Color.Black false)
         else if (x + y) % 2 = 0 ∧ 5 ≤ y then some (Piece.Filled Color.Red false)
         else some Piece.Empty)) := by
  cases c <;> decide

/-- Witness for C8 at the concrete starting color Black. -/
theorem reset_initial_spec_witness :
    ((Board.new Color.Black).reset).get_piece 0 0 =
      some (Piece.Filled Color.Black false) := by
  have h := (reset_initial_spec Color.Black).2.2.2 0 (by decide) 0 (by decide)
  simpa using h

/-! ### Claim theorems: capture turn handling (C2) and StaticList (C7) -/

/-- C2 (evaluation at the failing input): on `captureBugBoard` the
generator produces the capture `(2,2) → (4,4)` over `(3,3)`; executing it
leaves the moved piece with no further capture, sets `last_turn` to
Black, and yet keeps `current_turn = Black` — the Capture branch of
`execute_action` never flips the turn, contradicting the claimed flip to
the opponent. -/
theorem capture_turn_not_flipped :
    captureBugBoard.get_action 2 2 1 1 (Piece.Filled Color.Black false) =
      some (Action.Capture 2 2 4 4 3 3) ∧
    (captureBugBoard.execute_action (Action.Capture 2 2 4 4 3 3)).map
      (fun b2 => (b2.current_turn, b2.last_turn, b2.piece_has_capture 4 4)) =
      some (Color.Black, some Color.Black, false) := by decide

/-- C7 (counterexample): after one push and a `clear`, the length is 0
and yet `get 0` returns the stale element instead of being fatal, so
`get(i)` is not fatal whenever `i ≥ len`. -/
theorem static_list_stale_get_cx :
    staleDemo.len = 0 ∧ staleDemo.get 0 = some 42 := by decide

/-- C7 (amended): `push` appends below capacity 25 and is fatal at or
above it; `get(i)` is fatal iff `i ≥ 25` or slot `i` was never written —
the current length is not consulted, so elements surviving a `clear`
remain readable. -/
theorem static_list_spec {T : Type} (l : StaticList T) (x : T)
    (hwf : l.mem.length = STATIC_SIZE) :
    (STATIC_SIZE ≤ l.len → l.push x = none) ∧
    (l.len < STATIC_SIZE → ∃ l2, l.push x = some l2 ∧ l2.len = l.len + 1 ∧
      l2.get l.len = some x ∧ ∀ j, j ≠ l.len → l2.get j = l.get j) ∧
    (∀ i, l.get i = none ↔ STATIC_SIZE ≤ i ∨ l.mem.getD i none = none) ∧
    ((l.clear).len = 0 ∧ ∀ i, (l.clear).get i = l.get i) := by
  refine ⟨?_, ?_, ?_, rfl, fun i => rfl⟩
  · intro h
    simp [StaticList.push, h]
  · intro h
    refine ⟨{ mem := l.mem.set l.len (some x), len := l.len + 1 }, ?_, rfl, ?_, ?_⟩
    · simp [StaticList.push, Nat.not_le.mpr h]
    · have hlt : l.len < l.mem.length := by rw [hwf]; exact h
      simp [StaticList.get, List.getElem?_set_eq_of_lt _ hlt]
    · intro j hj
      simp [StaticList.get, List.getElem?_set_ne (Ne.symm hj)]
  · intro i
    unfold StaticList.get
    by_cases hi : STATIC_SIZE ≤ i
    · have hlen : l.mem.length ≤ i := by rw [hwf]; exact hi
      simp [List.getElem?_eq_none hlen, hi]
    · simp [hi]

/-! ### Invariants of the move scan (toward C1 and C3) -/

theorem StaticList.push_eq {T : Type} {l l2 : StaticList T} {x : T}
    (h : l.push x = some l2) :
    l.len < STATIC_SIZE ∧ l2.len = l.len + 1 ∧
      l2.mem = l.mem.set l.len (some x) := by
  unfold StaticList.push at h
  split at h
  · exact absurd h (by simp)
  · rename_i hc
    cases h
    exact ⟨by omega, rfl, rfl⟩

theorem StaticList.SlotsOk.push_ok {T : Type} {P : T → Prop}
    {l l2 : StaticList T} {x : T} (h : l.SlotsOk P) (hx : P x)
    (hp : l.push x = some l2) : l2.SlotsOk P ∧ l2.len = l.len + 1 := by
  obtain ⟨hlt, hlen2, hmem2⟩ := StaticList.push_eq hp
  refine ⟨⟨by rw [hmem2]; simpa using h.1, ?_⟩, hlen2⟩
  intro i hi
  rw [hlen2] at hi
  rcases Nat.lt_succ_iff_lt_or_eq.mp hi with hi' | hi'
  · obtain ⟨a, ha, hpa⟩ := h.2 i hi'
    refine ⟨a, ?_, hpa⟩
    rw [← ha]
    simp [StaticList.get, hmem2, List.getElem?_set_ne (by omega : l.len ≠ i)]
  · subst hi'
    refine ⟨x, ?_, hx⟩
    have hl : l.len < l.mem.length := by rw [h.1]; exact hlt
    simp [StaticList.get, hmem2, List.getElem?_set_eq_of_lt _ hl]

theorem MoveMemHandler.WF.clear_wf {mm : MoveMemHandler} (h : mm.WF) :
    mm.clear.WF := h

theorem handlerInv_clear (b : Board) {mm : MoveMemHandler} (h : mm.WF) :
    handlerInv b mm.clear :=
  ⟨⟨h.1, fun i hi => absurd hi (Nat.not_lt_zero i)⟩,
   ⟨h.2, fun i hi => absurd hi (Nat.not_lt_zero i)⟩⟩

theorem handlerInv.toWF {b : Board} {mm : MoveMemHandler}
    (h : handlerInv b mm) : mm.WF := ⟨h.1.1, h.2.1⟩

theorem Action.isMove_of_not_isCapture {a : Action} (h : a.isCapture = false) :
    a.isMove = true := by
  cases a
  · rfl
  · exact absurd h (by simp [Action.isCapture])

theorem add_action_spec {b : Board} {mm mm2 : MoveMemHandler} {a : Action}
    (h : handlerInv b mm) (hg : b.genAction a)
    (ha : mm.add_action a = some mm2) :
    handlerInv b mm2 ∧
    mm.captures.len ≤ mm2.captures.len ∧ mm.moves.len ≤ mm2.moves.len ∧
    0 < mm2.captures.len + mm2.moves.len ∧
    (a.isMove = true → mm2.captures.len = mm.captures.len) ∧
    (a.isCapture = true → 0 < mm2.captures.len) := by
  cases a with
  | Capture q r s t u v =>
    unfold MoveMemHandler.add_action MoveMemHandler.add_capture at ha
    cases hp : mm.captures.push (Action.Capture q r s t u v) with
    | none => rw [hp] at ha; exact absurd ha (by simp)
    | some c2 =>
      rw [hp] at ha
      cases ha
      have hx : (Action.Capture q r s t u v).isCapture = true ∧
          b.genAction (Action.Capture q r s t u v) := ⟨rfl, hg⟩
      obtain ⟨hok, hlen⟩ := h.1.push_ok hx hp
      exact ⟨⟨hok, h.2⟩, by simp [hlen], le_refl _, by simp [hlen],
        fun hm => absurd hm (by simp [Action.isMove]),
        fun _ => by simp [hlen]⟩
  | Move q r s t =>
    unfold MoveMemHandler.add_action MoveMemHandler.add_move at ha
    by_cases hcc : mm.contains_capture = true
    · rw [if_pos hcc] at ha
      cases ha
      have hpos : 0 < mm.captures.len := by
        simpa [MoveMemHandler.contains_capture] using hcc
      exact ⟨h, le_refl _, le_refl _, by omega, fun _ => rfl,
        fun hc => absurd hc (by simp [Action.isCapture])⟩
    · rw [if_neg hcc] at ha
      cases hp : mm.moves.push (Action.Move q r s t) with
      | none => rw [hp] at ha; exact absurd ha (by simp)
      | some m2 =>
        rw [hp] at ha
        cases ha
        have hx : (Action.Move q r s t).isMove = true ∧
            b.genAction (Action.Move q r s t) := ⟨rfl, hg⟩
        obtain ⟨hok, hlen⟩ := h.2.push_ok hx hp
        exact ⟨⟨h.1, hok⟩, le_refl _, by simp [hlen], by simp [hlen],
          fun _ => rfl, fun hc => absurd hc (by simp [Action.isCapture])⟩

theorem bool_eq_false {a : Bool} (h : ¬ a = true) : a = false := by
  cases a with
  | false => rfl
  | true => exact absurd rfl h

theorem option_eq_none_of_isSome_false {α : Type} {o : Option α}
    (h : o.isSome = false) : o = none := by
  cases o with
  | none => rfl
  | some a => exact absurd h (by simp)

theorem piece_has_capture_eq_any {b : Board} {x y : Nat} {p : Piece}
    (hpc : b.get_piece x y = some p) :
    b.piece_has_capture x y =
      p.get_dirs.any (fun d => optIsCapture (b.get_action x y d.1 d.2 p)) := by
  have hfun : (fun (d : Int × Int) =>
      match b.get_action x y d.1 d.2 p with
      | some (Action.Capture _ _ _ _ _ _) => true
      | _ => false) =
      (fun d => optIsCapture (b.get_action x y d.1 d.2 p)) := by
    funext d
    cases b.get_action x y d.1 d.2 p with
    | none => rfl
    | some a => cases a <;> rfl
  unfold Board.piece_has_capture
  rw [hpc]
  show (p.get_dirs.any fun d =>
      match b.get_action x y d.1 d.2 p with
      | some (Action.Capture _ _ _ _ _ _) => true
      | _ => false) =
    p.get_dirs.any fun d => optIsCapture (b.get_action x y d.1 d.2 p)
  rw [hfun]

theorem squareHasAction_eq_any {b : Board} {x y : Nat} {p : Piece}
    (hpc : b.get_piece x y = some p) :
    b.squareHasAction x y =
      p.get_dirs.any (fun d => (b.get_action x y d.1 d.2 p).isSome) := by
  unfold Board.squareHasAction
  rw [hpc]

theorem dirsFold_spec {b : Board} {x y : Nat} {p : Piece}
    (hpc : b.get_piece x y = some p)
    (hcol : ∃ c k, p = Piece.Filled c k ∧ c = b.current_turn) :
    ∀ (L : List (Int × Int)) (mm mm2 : MoveMemHandler),
      (∀ d ∈ L, d ∈ p.get_dirs) → handlerInv b mm →
      b.dirsFold x y p L mm = some mm2 →
      handlerInv b mm2 ∧
      mm.captures.len ≤ mm2.captures.len ∧
      mm.moves.len ≤ mm2.moves.len ∧
      ((∃ d ∈ L, optIsCapture (b.get_action x y d.1 d.2 p) = true) →
        0 < mm2.captures.len) ∧
      ((∀ d ∈ L, optIsCapture (b.get_action x y d.1 d.2 p) = false) →
        mm2.captures.len = mm.captures.len) ∧
      ((∃ d ∈ L, (b.get_action x y d.1 d.2 p).isSome = true) →
        0 < mm2.captures.len + mm2.moves.len) ∧
      ((∀ d ∈ L, b.get_action x y d.1 d.2 p = none) → mm2 = mm) := by
  intro L
  induction L with
  | nil =>
    intro mm mm2 _ hinv hf
    cases hf
    exact ⟨hinv, le_refl _, le_refl _, by simp, fun _ => rfl, by simp,
      fun _ => rfl⟩
  | cons d L ih =>
    intro mm mm2 hL hinv hf
    unfold Board.dirsFold at hf
    cases hga : b.get_action x y d.1 d.2 p with
    | none =>
      have hex : b.extract_actions x y mm d.1 d.2 p = some mm :=
        by simp [Board.extract_actions, hga]
      rw [hex] at hf
      obtain ⟨h1, h2, h3, h4, h5, h6, h7⟩ :=
        ih mm mm2 (fun e he => hL e (List.mem_cons_of_mem _ he)) hinv hf
      refine ⟨h1, h2, h3, ?_, ?_, ?_, ?_⟩
      · rintro ⟨e, he, hcape⟩
        rcases List.mem_cons.mp he with rfl | he'
        · rw [hga] at hcape; exact absurd hcape (by simp [optIsCapture])
        · exact h4 ⟨e, he', hcape⟩
      · intro hall
        exact h5 (fun e he => hall e (List.mem_cons_of_mem _ he))
      · rintro ⟨e, he, hacte⟩
        rcases List.mem_cons.mp he with rfl | he'
        · rw [hga] at hacte; exact absurd hacte (by simp)
        · exact h6 ⟨e, he', hacte⟩
      · intro hall
        exact h7 (fun e he => hall e (List.mem_cons_of_mem _ he))
    | some a =>
      have hgen : b.genAction a := by
        obtain ⟨c, k, hp', hc'⟩ := hcol
        exact ⟨x, y, p, hpc, ⟨c, k, hp', hc'⟩,
          d, hL d (List.mem_cons_self _ _), hga⟩
      cases haa : mm.add_action a with
      | none =>
        have hex : b.extract_actions x y mm d.1 d.2 p = none := by
          simp [Board.extract_actions, hga, haa]
        rw [hex] at hf
        exact absurd hf (by simp)
      | some mmA =>
        have hex : b.extract_actions x y mm d.1 d.2 p = some mmA := by
          simp [Board.extract_actions, hga, haa]
        rw [hex] at hf
        obtain ⟨hA1, hA2, hA3, hA4, hA5, hA6⟩ := add_action_spec hinv hgen haa
        obtain ⟨h1, h2, h3, h4, h5, h6, h7⟩ :=
          ih mmA mm2 (fun e he => hL e (List.mem_cons_of_mem _ he)) hA1 hf
        refine ⟨h1, le_trans hA2 h2, le_trans hA3 h3, ?_, ?_, ?_, ?_⟩
        · rintro ⟨e, he, hcape⟩
          rcases List.mem_cons.mp he with rfl | he'
          · rw [hga] at hcape
            have := hA6 (by simpa [optIsCapture] using hcape)
            omega
          · exact h4 ⟨e, he', hcape⟩
        · intro hall
          have hhead := hall d (List.mem_cons_self _ _)
          rw [hga] at hhead
          have hmv : a.isMove = true :=
            Action.isMove_of_not_isCapture (by simpa [optIsCapture] using hhead)
          rw [h5 (fun e he => hall e (List.mem_cons_of_mem _ he)), hA5 hmv]
        · intro _
          omega
        · intro hall
          have hhead := hall d (List.mem_cons_self _ _)
          rw [hga] at hhead
          exact absurd hhead (by simp)

theorem dirsFold_no_action {b : Board} {x y : Nat} {p : Piece}
    (L : List (Int × Int))
    (hnone : ∀ d ∈ L, b.get_action x y d.1 d.2 p = none)
    (mm : MoveMemHandler) : b.dirsFold x y p L mm = some mm := by
  induction L with
  | nil => rfl
  | cons d L ih =>
    unfold Board.dirsFold
    have hex : b.extract_actions x y mm d.1 d.2 p = some mm := by
      simp [Board.extract_actions, hnone d (List.mem_cons_self _ _)]
    rw [hex]
    exact ih (fun e he => hnone e (List.mem_cons_of_mem _ he))

theorem get_piece_isSome (b : Board) {x y : Nat} (hx : x < 8) (hy : y < 8) :
    ∃ p, b.get_piece x y = some p := by
  unfold Board.get_piece
  have h8 : ¬(8 ≤ x ∨ 8 ≤ y) := by omega
  simp [h8]

theorem scanStep_eq_none {b : Board} {mm : MoveMemHandler} {xy : Nat × Nat}
    (hp : b.get_piece xy.1 xy.2 = none) : b.scanStep mm xy = none := by
  unfold Board.scanStep
  rw [hp]

theorem scanStep_eq_empty {b : Board} {mm : MoveMemHandler} {xy : Nat × Nat}
    (hp : b.get_piece xy.1 xy.2 = some Piece.Empty) :
    b.scanStep mm xy = some mm := by
  unfold Board.scanStep
  rw [hp]

theorem scanStep_eq_filled {b : Board} {mm : MoveMemHandler} {xy : Nat × Nat}
    {c : Color} {k : Bool} (hp : b.get_piece xy.1 xy.2 = some (Piece.Filled c k)) :
    b.scanStep mm xy =
      if c = b.current_turn then b.get_actions xy.1 xy.2 mm else some mm := by
  unfold Board.scanStep
  rw [hp]

theorem scanCapAt_eq_empty {b : Board} {xy : Nat × Nat}
    (hp : b.get_piece xy.1 xy.2 = some Piece.Empty) : b.scanCapAt xy = false := by
  unfold Board.scanCapAt
  rw [hp]

theorem scanCapAt_eq_filled {b : Board} {xy : Nat × Nat} {c : Color} {k : Bool}
    (hp : b.get_piece xy.1 xy.2 = some (Piece.Filled c k)) :
    b.scanCapAt xy =
      (decide (c = b.current_turn) && b.piece_has_capture xy.1 xy.2) := by
  unfold Board.scanCapAt
  rw [hp]

theorem scanActAt_eq_empty {b : Board} {xy : Nat × Nat}
    (hp : b.get_piece xy.1 xy.2 = some Piece.Empty) : b.scanActAt xy = false := by
  unfold Board.scanActAt
  rw [hp]

theorem scanActAt_eq_filled {b : Board} {xy : Nat × Nat} {c : Color} {k : Bool}
    (hp : b.get_piece xy.1 xy.2 = some (Piece.Filled c k)) :
    b.scanActAt xy =
      (decide (c = b.current_turn) && b.squareHasAction xy.1 xy.2) := by
  unfold Board.scanActAt
  rw [hp]

theorem get_actions_eq {b : Board} {x y : Nat} {p : Piece}
    {mm : MoveMemHandler} (hp : b.get_piece x y = some p) :
    b.get_actions x y mm = b.dirsFold x y p p.get_dirs mm := by
  unfold Board.get_actions
  rw [hp]

theorem scanStep_spec {b : Board} {mm mm2 : MoveMemHandler} {xy : Nat × Nat}
    (hinv : handlerInv b mm) (hs : b.scanStep mm xy = some mm2) :
    handlerInv b mm2 ∧
    mm.captures.len ≤ mm2.captures.len ∧
    mm.moves.len ≤ mm2.moves.len ∧
    (b.scanCapAt xy = true → 0 < mm2.captures.len) ∧
    (b.scanCapAt xy = false → mm2.captures.len = mm.captures.len) ∧
    (b.scanActAt xy = true → 0 < mm2.captures.len + mm2.moves.len) ∧
    (b.scanActAt xy = false → mm2 = mm) := by
  cases hp : b.get_piece xy.1 xy.2 with
  | none => rw [scanStep_eq_none hp] at hs; exact absurd hs (by simp)
  | some piece =>
    cases piece with
    | Empty =>
      rw [scanStep_eq_empty hp] at hs
      cases hs
      exact ⟨hinv, le_refl _, le_refl _,
        fun ht => absurd ht (by simp [scanCapAt_eq_empty hp]),
        fun _ => rfl,
        fun ht => absurd ht (by simp [scanActAt_eq_empty hp]),
        fun _ => rfl⟩
    | Filled c k =>
      rw [scanStep_eq_filled hp] at hs
      rw [scanCapAt_eq_filled hp, scanActAt_eq_filled hp]
      by_cases hc : c = b.current_turn
      · rw [if_pos hc] at hs
        rw [get_actions_eq hp] at hs
        obtain ⟨h1, h2, h3, h4, h5, h6, h7⟩ :=
          dirsFold_spec hp ⟨c, k, rfl, hc⟩ (Piece.Filled c k).get_dirs mm mm2
            (fun d hd => hd) hinv hs
        have hcapeq := piece_has_capture_eq_any hp
        have hacteq := squareHasAction_eq_any hp
        refine ⟨h1, h2, h3, ?_, ?_, ?_, ?_⟩
        · intro ht
          rw [hc] at ht
          simp only [decide_eq_true_eq] at ht
          simp at ht
          rw [hcapeq] at ht
          exact h4 (List.any_eq_true.mp ht)
        · intro ht
          rw [hc] at ht
          simp at ht
          rw [hcapeq] at ht
          exact h5 (fun d hd => bool_eq_false (List.any_eq_false.mp ht d hd))
        · intro ht
          rw [hc] at ht
          simp at ht
          rw [hacteq] at ht
          exact h6 (List.any_eq_true.mp ht)
        · intro ht
          rw [hc] at ht
          simp at ht
          rw [hacteq] at ht
          refine h7 (fun d hd => ?_)
          exact option_eq_none_of_isSome_false
            (bool_eq_false (List.any_eq_false.mp ht d hd))
      · rw [if_neg hc] at hs
        cases hs
        refine ⟨hinv, le_refl _, le_refl _, ?_, fun _ => rfl, ?_, fun _ => rfl⟩
        · intro ht
          simp [hc] at ht
        · intro ht
          simp [hc] at ht

theorem scanFold_spec {b : Board} :
    ∀ (L : List (Nat × Nat)) (mm mm2 : MoveMemHandler),
      handlerInv b mm → b.scanFold L mm = some mm2 →
      handlerInv b mm2 ∧
      mm.captures.len ≤ mm2.captures.len ∧
      mm.moves.len ≤ mm2.moves.len ∧
      ((∃ xy ∈ L, b.scanCapAt xy = true) → 0 < mm2.captures.len) ∧
      ((∀ xy ∈ L, b.scanCapAt xy = false) →
        mm2.captures.len = mm.captures.len) ∧
      ((∃ xy ∈ L, b.scanActAt xy = true) →
        0 < mm2.captures.len + mm2.moves.len) ∧
      ((∀ xy ∈ L, b.scanActAt xy = false) → mm2 = mm) := by
  intro L
  induction L with
  | nil =>
    intro mm mm2 hinv hf
    cases hf
    exact ⟨hinv, le_refl _, le_refl _, by simp, fun _ => rfl, by simp,
      fun _ => rfl⟩
  | cons xy L ih =>
    intro mm mm2 hinv hf
    unfold Board.scanFold at hf
    cases hstep : b.scanStep mm xy with
    | none => rw [hstep] at hf; exact absurd hf (by simp)
    | some mmA =>
      rw [hstep] at hf
      obtain ⟨hA1, hA2, hA3, hA4, hA5, hA6, hA7⟩ := scanStep_spec hinv hstep
      obtain ⟨h1, h2, h3, h4, h5, h6, h7⟩ := ih mmA mm2 hA1 hf
      refine ⟨h1, le_trans hA2 h2, le_trans hA3 h3, ?_, ?_, ?_, ?_⟩
      · rintro ⟨e, he, hcape⟩
        rcases List.mem_cons.mp he with rfl | he'
        · have := hA4 hcape; omega
        · exact h4 ⟨e, he', hcape⟩
      · intro hall
        rw [h5 (fun e he => hall e (List.mem_cons_of_mem _ he)),
          hA5 (hall xy (List.mem_cons_self _ _))]
      · rintro ⟨e, he, hacte⟩
        rcases List.mem_cons.mp he with rfl | he'
        · have := hA6 hacte; omega
        · exact h6 ⟨e, he', hacte⟩
      · intro hall
        rw [h7 (fun e he => hall e (List.mem_cons_of_mem _ he)),
          hA7 (hall xy (List.mem_cons_self _ _))]

theorem scanFold_no_action {b : Board} :
    ∀ (L : List (Nat × Nat)), (∀ xy ∈ L, xy.1 < 8 ∧ xy.2 < 8) →
      (∀ xy ∈ L, b.scanActAt xy = false) →
      ∀ mm, b.scanFold L mm = some mm := by
  intro L
  induction L with
  | nil => intro _ _ mm; rfl
  | cons xy L ih =>
    intro hb hact mm
    have hxy := hb xy (List.mem_cons_self _ _)
    obtain ⟨p, hp⟩ := get_piece_isSome b hxy.1 hxy.2
    have hstep : b.scanStep mm xy = some mm := by
      cases p with
      | Empty => exact scanStep_eq_empty hp
      | Filled c k =>
        rw [scanStep_eq_filled hp]
        by_cases hc : c = b.current_turn
        · rw [if_pos hc]
          rw [get_actions_eq hp]
          apply dirsFold_no_action
          intro d hd
          have hact' := hact xy (List.mem_cons_self _ _)
          rw [scanActAt_eq_filled hp, hc] at hact'
          simp at hact'
          rw [squareHasAction_eq_any hp] at hact'
          exact option_eq_none_of_isSome_false
            (bool_eq_false (List.any_eq_false.mp hact' d hd))
        · rw [if_neg hc]
    unfold Board.scanFold
    rw [hstep]
    exact ih (fun e he => hb e (List.mem_cons_of_mem _ he))
      (fun e he => hact e (List.mem_cons_of_mem _ he)) mm

theorem coordScan_bounds : ∀ xy ∈ coordScan, xy.1 < 8 ∧ xy.2 < 8 := by decide

theorem get_all_actions_spec {b : Board} {mm0 mm : MoveMemHandler}
    (h0 : mm0.WF) (h : b.get_all_actions mm0 = some mm) :
    handlerInv b mm ∧
    (b.hasBoardCapture = true ↔ 0 < mm.captures.len) ∧
    (b.hasAnyAction = true ↔ mm.has_actions = true) := by
  unfold Board.get_all_actions at h
  have hinv0 : handlerInv b mm0.clear := handlerInv_clear b h0
  obtain ⟨h1, h2, h3, h4, h5, h6, h7⟩ :=
    scanFold_spec coordScan mm0.clear mm hinv0 h
  refine ⟨h1, ⟨?_, ?_⟩, ⟨?_, ?_⟩⟩
  · intro hb
    exact h4 (List.any_eq_true.mp hb)
  · intro hpos
    by_contra hb
    have hb' : b.hasBoardCapture = false := by
      cases hbc : b.hasBoardCapture
      · rfl
      · exact absurd hbc hb
    have := h5 (fun e he => bool_eq_false (List.any_eq_false.mp hb' e he))
    simp [MoveMemHandler.clear, StaticList.clear] at this
    omega
  · intro hb
    have hsum := h6 (List.any_eq_true.mp hb)
    unfold MoveMemHandler.has_actions
    by_cases hc : 0 < mm.captures.len
    · simp [hc]
    · have hm : 0 < mm.moves.len := by omega
      simp [hm]
  · intro hact
    by_contra hb
    have hb' : b.hasAnyAction = false := by
      cases hbc : b.hasAnyAction
      · rfl
      · exact absurd hbc hb
    have heq := h7 (fun e he => bool_eq_false (List.any_eq_false.mp hb' e he))
    rw [heq] at hact
    simp [MoveMemHandler.has_actions, MoveMemHandler.clear,
      StaticList.clear] at hact

theorem make_random_move_eq {b : Board} {mm0 mm1 : MoveMemHandler} {n : Nat}
    (hscan : b.get_all_actions mm0.clear = some mm1) :
    b.make_random_move mm0 n =
      (if mm1.has_actions = false then
        some (some b.current_turn.opposite, b, mm1)
      else
        match mm1.get_random_move n with
        | none => none
        | some act =>
          match b.execute_action act with
          | none => none
          | some b2 => some (none, b2, mm1.clear)) := by
  unfold Board.make_random_move
  rw [hscan]

theorem get_random_move_genAction {b : Board} {mm : MoveMemHandler}
    (h : handlerInv b mm) {n : Nat} {a : Action}
    (hg : mm.get_random_move n = some a) : b.genAction a := by
  unfold MoveMemHandler.get_random_move at hg
  by_cases hcc : mm.contains_capture = true
  · rw [if_pos hcc] at hg
    have hpos : 0 < mm.captures.len := by
      simpa [MoveMemHandler.contains_capture] using hcc
    obtain ⟨a', ha', hP⟩ := h.1.2 _ (Nat.mod_lt n hpos)
    rw [hg] at ha'
    cases ha'
    exact hP.2
  · rw [if_neg hcc] at hg
    by_cases hm : 0 < mm.moves.len
    · rw [if_pos hm] at hg
      obtain ⟨a', ha', hP⟩ := h.2.2 _ (Nat.mod_lt n hm)
      rw [hg] at ha'
      cases ha'
      exact hP.2
    · rw [if_neg hm] at hg
      exact absurd hg (by simp)

/-! ### Claim theorems: mandatory capture (C1) and make_random_move (C3) -/

/-- C1: whenever `get_all_actions` completes, the accessors expose only
captures when the side to move has a capture anywhere, and only simple
moves when it has none. -/
theorem mandatory_capture_exposure (b : Board) (mm0 : MoveMemHandler)
    (h0 : mm0.WF) (mm : MoveMemHandler)
    (h : b.get_all_actions mm0 = some mm) :
    (b.hasBoardCapture = true →
      mm.contains_capture = true ∧
      (∀ i, i < mm.len → ∃ a, mm.get i = some a ∧ a.isCapture = true) ∧
      (∀ n, ∃ a, mm.get_random_move n = some a ∧ a.isCapture = true)) ∧
    (b.hasBoardCapture = false →
      mm.contains_capture = false ∧
      (∀ i, i < mm.len → ∃ a, mm.get i = some a ∧ a.isMove = true) ∧
      (∀ n, 0 < mm.len → ∃ a, mm.get_random_move n = some a ∧
        a.isMove = true)) := by
  obtain ⟨hinv, hcap, _⟩ := get_all_actions_spec h0 h
  constructor
  · intro hb
    have hpos : 0 < mm.captures.len := hcap.mp hb
    have hcc : mm.contains_capture = true := by
      simpa [MoveMemHandler.contains_capture] using hpos
    refine ⟨hcc, ?_, ?_⟩
    · intro i hi
      rw [MoveMemHandler.len, if_pos hcc] at hi
      obtain ⟨a, ha, hP⟩ := hinv.1.2 i hi
      exact ⟨a, by rw [MoveMemHandler.get, if_pos hcc]; exact ha, hP.1⟩
    · intro n
      obtain ⟨a, ha, hP⟩ := hinv.1.2 _ (Nat.mod_lt n hpos)
      refine ⟨a, ?_, hP.1⟩
      rw [MoveMemHandler.get_random_move, if_pos hcc]
      exact ha
  · intro hb
    have hz : mm.captures.len = 0 := by
      by_contra hnz
      exact absurd (hcap.mpr (by omega)) (by simp [hb])
    have hcc : mm.contains_capture = false := by
      simp [MoveMemHandler.contains_capture, hz]
    refine ⟨hcc, ?_, ?_⟩
    · intro i hi
      rw [MoveMemHandler.len, if_neg (by simp [hcc])] at hi
      obtain ⟨a, ha, hP⟩ := hinv.2.2 i hi
      exact ⟨a, by rw [MoveMemHandler.get, if_neg (by simp [hcc])]; exact ha,
        hP.1⟩
    · intro n hlen
      rw [MoveMemHandler.len, if_neg (by simp [hcc])] at hlen
      obtain ⟨a, ha, hP⟩ := hinv.2.2 _ (Nat.mod_lt n hlen)
      refine ⟨a, ?_, hP.1⟩
      rw [MoveMemHandler.get_random_move, if_neg (by simp [hcc]), if_pos hlen]
      exact ha

/-- Witness for C1 on a concrete board that has a capture. -/
theorem mandatory_capture_exposure_witness : wMM.contains_capture = true :=
  ((mandatory_capture_exposure captureBugBoard MoveMemHandler.new (by decide)
    wMM (by decide)).1 (by decide)).1

/-- C3 (counterexample): on `overflowBoard` the side to move has legal
actions, yet `make_random_move` neither returns the opponent nor
executes a move and returns nothing — it dies on the 26th push into the
25-slot move list. -/
theorem make_random_move_overflow_cx :
    overflowBoard.hasAnyAction = true ∧
    overflowBoard.make_random_move MoveMemHandler.new 0 = none := by decide

/-- C3 (amended): when the side to move has no action,
`make_random_move` returns its opponent and mutates nothing; whenever it
completes with `none` it has executed one generated action; overflowing
the 25-slot lists is fatal instead. -/
theorem make_random_move_spec (b : Board) (mm0 : MoveMemHandler)
    (h0 : mm0.WF) (n : Nat) :
    (b.hasAnyAction = false →
      b.make_random_move mm0 n =
        some (some b.current_turn.opposite, b, mm0.clear)) ∧
    (∀ c bd mmr, b.make_random_move mm0 n = some (some c, bd, mmr) →
      b.hasAnyAction = false ∧ c = b.current_turn.opposite ∧ bd = b) ∧
    (∀ bd mmr, b.make_random_move mm0 n = some (none, bd, mmr) →
      b.hasAnyAction = true ∧
      ∃ a, b.genAction a ∧ b.execute_action a = some bd) := by
  refine ⟨?_, ?_, ?_⟩
  · intro hno
    have hscan : b.get_all_actions mm0.clear = some mm0.clear := by
      unfold Board.get_all_actions
      exact scanFold_no_action coordScan coordScan_bounds
        (fun xy hxy => bool_eq_false (List.any_eq_false.mp hno xy hxy))
        mm0.clear.clear
    rw [make_random_move_eq hscan]
    have hact : mm0.clear.has_actions = false := rfl
    rw [if_pos hact]
  · intro c bd mmr hmk
    cases hscan : b.get_all_actions mm0.clear with
    | none =>
      unfold Board.make_random_move at hmk
      rw [hscan] at hmk
      exact absurd hmk (by simp)
    | some mm1 =>
      rw [make_random_move_eq hscan] at hmk
      obtain ⟨hinv, _, hiff⟩ := get_all_actions_spec h0.clear_wf hscan
      by_cases hact : mm1.has_actions = false
      · rw [if_pos hact] at hmk
        cases hmk
        refine ⟨?_, rfl, rfl⟩
        cases hany : b.hasAnyAction
        · rfl
        · exact absurd (hiff.mp hany) (by simp [hact])
      · rw [if_neg hact] at hmk
        cases hgr : mm1.get_random_move n with
        | none => rw [hgr] at hmk; exact absurd hmk (by simp)
        | some act =>
          rw [hgr] at hmk
          have hmk2 : (match b.execute_action act with
              | none => none
              | some b2 => some (none, b2, mm1.clear)) =
              some (some c, bd, mmr) := hmk
          cases hex : b.execute_action act with
          | none => rw [hex] at hmk2; exact absurd hmk2 (by simp)
          | some b2 => rw [hex] at hmk2; exact absurd hmk2 (by simp)
  · intro bd mmr hmk
    cases hscan : b.get_all_actions mm0.clear with
    | none =>
      unfold Board.make_random_move at hmk
      rw [hscan] at hmk
      exact absurd hmk (by simp)
    | some mm1 =>
      rw [make_random_move_eq hscan] at hmk
      obtain ⟨hinv, _, hiff⟩ := get_all_actions_spec h0.clear_wf hscan
      by_cases hact : mm1.has_actions = false
      · rw [if_pos hact] at hmk
        exact absurd hmk (by simp)
      · rw [if_neg hact] at hmk
        cases hgr : mm1.get_random_move n with
        | none => rw [hgr] at hmk; exact absurd hmk (by simp)
        | some act =>
          rw [hgr] at hmk
          have hmk2 : (match b.execute_action act with
              | none => none
              | some b2 => some (none, b2, mm1.clear)) =
              some (none, bd, mmr) := hmk
          cases hex : b.execute_action act with
          | none => rw [hex] at hmk2; exact absurd hmk2 (by simp)
          | some b2 =>
            rw [hex] at hmk2
            cases hmk2
            refine ⟨?_, act, get_random_move_genAction hinv hgr, hex⟩
            apply hiff.mpr
            cases hacts : mm1.has_actions
            · exact absurd hacts hact
            · rfl

/-- Witness for the amended C3 on the empty board: no action exists, so
the opponent is returned and the board is untouched. -/
theorem make_random_move_spec_witness :
    (Board.new Color.Black).make_random_move MoveMemHandler.new 0 =
      some (some (Board.new Color.Black).current_turn.opposite,
        Board.new Color.Black, MoveMemHandler.new.clear) :=
  (make_random_move_spec (Board.new Color.Black) MoveMemHandler.new
    (by decide) 0).1 (by decide)

/-- Witness for the amended C7 at a concrete list. -/
theorem static_list_spec_witness :
    ∃ l2, (StaticList.new : StaticList Nat).push 5 = some l2 ∧
      l2.len = (StaticList.new : StaticList Nat).len + 1 ∧
      l2.get (StaticList.new : StaticList Nat).len = some 5 ∧
      ∀ j, j ≠ (StaticList.new : StaticList Nat).len →
        l2.get j = (StaticList.new : StaticList Nat).get j :=
  (static_list_spec (StaticList.new : StaticList Nat) 5 (by decide)).2.1
    (by decide)

/-! ### Action execution and kinging (toward C4) -/

theorem get_piece_some_bounds {b : Board} {u v : Nat} {p : Piece}
    (h : b.get_piece u v = some p) : u < 8 ∧ v < 8 := by
  unfold Board.get_piece at h
  by_cases h8 : 8 ≤ u ∨ 8 ≤ v
  · rw [if_pos h8] at h
    exact absurd h (by simp)
  · omega

theorem get_piece_some_getD {b : Board} {u v : Nat} {p : Piece}
    (h : b.get_piece u v = some p) :
    b.internal_state.getD (v * 8 + u) Piece.Empty = p := by
  unfold Board.get_piece at h
  by_cases h8 : 8 ≤ u ∨ 8 ≤ v
  · rw [if_pos h8] at h
    exact absurd h (by simp)
  · rw [if_neg h8] at h
    exact Option.some.inj h

theorem get_action_cases {b : Board} {x y : Nat} {xd yd : Int} {p : Piece}
    {a : Action} (h : b.get_action x y xd yd p = some a) :
    ∃ c k, p = Piece.Filled c k ∧
      ((∃ nx ny, a = Action.Move x y nx ny ∧
         b.get_piece nx ny = some Piece.Empty) ∨
       (∃ nx ny cx cy c2 k2, a = Action.Capture x y nx ny cx cy ∧
         b.get_piece cx cy = some (Piece.Filled c2 k2) ∧ c2 ≠ c ∧
         b.get_piece nx ny = some Piece.Empty)) := by
  cases p with
  | Empty => exact absurd h (by simp [Board.get_action])
  | Filled c k =>
    simp only [Board.get_action] at h
    refine ⟨c, k, rfl, ?_⟩
    split at h
    · rename_i hcp
      cases h
      exact Or.inl ⟨_, _, rfl, hcp⟩
    · rename_i c2 k2 hcp
      split at h
      · rename_i hne
        split at h
        · rename_i hmt
          cases h
          exact Or.inr ⟨_, _, _, _, c2, k2, rfl, hcp, hne, hmt⟩
        · exact absurd h (by simp)
        · exact absurd h (by simp)
      · exact absurd h (by simp)
    · exact absurd h (by simp)

theorem king_piece_eq {b : Board} {x y : Nat} {c : Color} {k : Bool}
    (hwf : b.WF) (hp : b.get_piece x y = some (Piece.Filled c k)) :
    b.king_piece x y = some (b.set_piece x y (Piece.Filled c true)) := by
  obtain ⟨hx, hy⟩ := get_piece_some_bounds hp
  have hlt : y * 8 + x < b.internal_state.length := by rw [hwf]; omega
  have hval : b.internal_state[y * 8 + x]? = some (Piece.Filled c k) := by
    have hgd := get_piece_some_getD hp
    rw [List.getD_eq_getElem?_getD, List.getElem?_eq_getElem hlt] at hgd
    rw [List.getElem?_eq_getElem hlt]
    simpa using hgd
  unfold Board.king_piece
  rw [hval]
  rfl

theorem get_piece_update_turns (b : Board) (lt : Option Color) (ct : Color)
    (u v : Nat) :
    ({ b with last_turn := lt, current_turn := ct } : Board).get_piece u v =
      b.get_piece u v := rfl

theorem get_piece_update_last (b : Board) (lt : Option Color) (u v : Nat) :
    ({ b with last_turn := lt } : Board).get_piece u v = b.get_piece u v := rfl

/-- C4: a legally generated action executed by `execute_action` leaves
the moved piece at the landing square kinged iff it was a king already
or its landing row equals the piece's promotion row (7 for Black, 0 for
Red); and no square holding a king ever comes to hold a non-king piece
of any color — kings only persist or disappear. -/
theorem kinging_spec (b : Board) (hwf : b.WF) {x y : Nat} {xd yd : Int}
    {p : Piece} {a : Action} {b2 : Board}
    (hp : b.get_piece x y = some p)
    (ha : b.get_action x y xd yd p = some a)
    (hex : b.execute_action a = some b2) :
    (∃ c k, p = Piece.Filled c k ∧
      b2.get_piece a.dst.1 a.dst.2 =
        some (Piece.Filled c (k || decide (a.dst.2 = p.king_y_con)))) ∧
    (∀ u v c2, b.get_piece u v = some (Piece.Filled c2 true) →
      b2.get_piece u v = some (Piece.Filled c2 true) ∨
      b2.get_piece u v = some Piece.Empty) := by
  obtain ⟨hx, hy⟩ := get_piece_some_bounds hp
  obtain ⟨c, k, hpck, hcase⟩ := get_action_cases ha
  subst hpck
  rcases hcase with ⟨nx, ny, rfl, htgt⟩ |
    ⟨nx, ny, cx, cy, c2, k2, rfl, hcap, hne, htgt⟩
  · -- Move
    obtain ⟨hnx, hny⟩ := get_piece_some_bounds htgt
    have hnexy : ¬(nx = x ∧ ny = y) := by
      rintro ⟨rfl, rfl⟩
      rw [hp] at htgt
      exact absurd htgt (by simp)
    have hwf1 : ((b.set_piece x y Piece.Empty).set_piece nx ny
        (Piece.Filled c k)).WF := (hwf.set_piece x y _).set_piece nx ny _
    have hb1tgt : ((b.set_piece x y Piece.Empty).set_piece nx ny
        (Piece.Filled c k)).get_piece nx ny = some (Piece.Filled c k) :=
      Board.get_piece_set_self (hwf.set_piece x y _) hnx hny _
    simp only [Board.execute_action, hp, Option.some_bind] at hex
    by_cases hk : ny = (Piece.Filled c k).king_y_con
    · rw [if_pos hk, king_piece_eq hwf1 hb1tgt, Option.some_bind] at hex
      cases hex
      constructor
      · refine ⟨c, k, rfl, ?_⟩
        dsimp only [Action.dst]
        rw [get_piece_update_turns]
        rw [Board.get_piece_set_self hwf1 hnx hny]
        simp [Action.dst, hk]
      · intro u v c3 hu
        by_cases hux : u = x ∧ v = y
        · right
          rw [get_piece_update_turns]
          rw [Board.get_piece_set_of_ne hnx hny (by rw [hux.1, hux.2]; tauto) _]
          rw [Board.get_piece_set_of_ne hnx hny
            (by rw [hux.1, hux.2]; exact fun hh => hnexy ⟨hh.1.symm ▸ rfl, hh.2.symm ▸ rfl⟩) _]
          rw [hux.1, hux.2]
          exact Board.get_piece_set_self hwf hx hy _
        · by_cases hun : u = nx ∧ v = ny
          · rw [hun.1, hun.2, htgt] at hu
            exact absurd hu (by simp)
          · left
            rw [get_piece_update_turns]
            rw [Board.get_piece_set_of_ne hnx hny hun _,
              Board.get_piece_set_of_ne hnx hny hun _,
              Board.get_piece_set_of_ne hx hy hux _]
            exact hu
    · rw [if_neg hk, Option.some_bind] at hex
      cases hex
      constructor
      · refine ⟨c, k, rfl, ?_⟩
        dsimp only [Action.dst]
        rw [get_piece_update_turns]
        rw [hb1tgt]
        simp [Action.dst, hk]
      · intro u v c3 hu
        by_cases hux : u = x ∧ v = y
        · right
          rw [get_piece_update_turns]
          rw [Board.get_piece_set_of_ne hnx hny
            (by rw [hux.1, hux.2]; exact fun hh => hnexy ⟨hh.1.symm ▸ rfl, hh.2.symm ▸ rfl⟩) _]
          rw [hux.1, hux.2]
          exact Board.get_piece_set_self hwf hx hy _
        · by_cases hun : u = nx ∧ v = ny
          · rw [hun.1, hun.2, htgt] at hu
            exact absurd hu (by simp)
          · left
            rw [get_piece_update_turns]
            rw [Board.get_piece_set_of_ne hnx hny hun _,
              Board.get_piece_set_of_ne hx hy hux _]
            exact hu
  · -- Capture
    obtain ⟨hnx, hny⟩ := get_piece_some_bounds htgt
    obtain ⟨hcx, hcy⟩ := get_piece_some_bounds hcap
    have hnexy : ¬(nx = x ∧ ny = y) := by
      rintro ⟨rfl, rfl⟩
      rw [hp] at htgt
      exact absurd htgt (by simp)
    have hnecc : ¬(nx = cx ∧ ny = cy) := by
      rintro ⟨rfl, rfl⟩
      rw [hcap] at htgt
      exact absurd htgt (by simp)
    have hcexy : ¬(cx = x ∧ cy = y) := by
      rintro ⟨rfl, rfl⟩
      rw [hp] at hcap
      simp only [Option.some.injEq] at hcap
      cases hcap
      exact hne rfl
    have hwf1 : (((b.set_piece x y Piece.Empty).set_piece cx cy
        Piece.Empty).set_piece nx ny (Piece.Filled c k)).WF :=
      ((hwf.set_piece x y _).set_piece cx cy _).set_piece nx ny _
    have hb1tgt : (((b.set_piece x y Piece.Empty).set_piece cx cy
        Piece.Empty).set_piece nx ny (Piece.Filled c k)).get_piece nx ny =
        some (Piece.Filled c k) :=
      Board.get_piece_set_self ((hwf.set_piece x y _).set_piece cx cy _) hnx hny _
    simp only [Board.execute_action, hp, Option.some_bind] at hex
    by_cases hk : ny = (Piece.Filled c k).king_y_con
    · rw [if_pos hk, king_piece_eq hwf1 hb1tgt, Option.some_bind] at hex
      -- hex : (if piece_has_capture then some bK else some bK') = some b2
      have hdst : b2.get_piece nx ny = some (Piece.Filled c true) := by
        split at hex <;> cases hex
        · rw [Board.get_piece_set_self hwf1 hnx hny]
        · rw [get_piece_update_last, Board.get_piece_set_self hwf1 hnx hny]
      have hframe : ∀ u v, ¬(u = nx ∧ v = ny) →
          b2.get_piece u v =
            (((b.set_piece x y Piece.Empty).set_piece cx cy
              Piece.Empty).set_piece nx ny (Piece.Filled c k)).get_piece u v := by
        intro u v hun
        split at hex <;> cases hex
        · rw [Board.get_piece_set_of_ne hnx hny hun _]
        · rw [get_piece_update_last, Board.get_piece_set_of_ne hnx hny hun _]
      constructor
      · refine ⟨c, k, rfl, ?_⟩
        dsimp only [Action.dst]
        rw [hdst]
        simp [hk]
      · intro u v c3 hu
        by_cases hun : u = nx ∧ v = ny
        · rw [hun.1, hun.2, htgt] at hu
          exact absurd hu (by simp)
        · rw [hframe u v hun]
          by_cases hux : u = x ∧ v = y
          · right
            rw [Board.get_piece_set_of_ne hnx hny hun _,
              Board.get_piece_set_of_ne hcx hcy
                (by rw [hux.1, hux.2]; exact fun hh => hcexy ⟨hh.1.symm ▸ rfl, hh.2.symm ▸ rfl⟩) _]
            rw [hux.1, hux.2]
            exact Board.get_piece_set_self hwf hx hy _
          · by_cases huc : u = cx ∧ v = cy
            · right
              rw [Board.get_piece_set_of_ne hnx hny hun _]
              rw [huc.1, huc.2]
              exact Board.get_piece_set_self (hwf.set_piece x y _) hcx hcy _
            · left
              rw [Board.get_piece_set_of_ne hnx hny hun _,
                Board.get_piece_set_of_ne hcx hcy huc _,
                Board.get_piece_set_of_ne hx hy hux _]
              exact hu
    · rw [if_neg hk, Option.some_bind] at hex
      have hdst : b2.get_piece nx ny = some (Piece.Filled c k) := by
        split at hex <;> cases hex
        · exact hb1tgt
        · rw [get_piece_update_last]
          exact hb1tgt
      have hframe : ∀ u v, ¬(u = nx ∧ v = ny) →
          b2.get_piece u v =
            (((b.set_piece x y Piece.Empty).set_piece cx cy
              Piece.Empty).set_piece nx ny (Piece.Filled c k)).get_piece u v := by
        intro u v _
        split at hex <;> cases hex
        · rfl
        · rw [get_piece_update_last]
      constructor
      · refine ⟨c, k, rfl, ?_⟩
        dsimp only [Action.dst]
        rw [hdst]
        simp [hk]
      · intro u v c3 hu
        by_cases hun : u = nx ∧ v = ny
        · rw [hun.1, hun.2, htgt] at hu
          exact absurd hu (by simp)
        · rw [hframe u v hun]
          by_cases hux : u = x ∧ v = y
          · right
            rw [Board.get_piece_set_of_ne hnx hny hun _,
              Board.get_piece_set_of_ne hcx hcy
                (by rw [hux.1, hux.2]; exact fun hh => hcexy ⟨hh.1.symm ▸ rfl, hh.2.symm ▸ rfl⟩) _]
            rw [hux.1, hux.2]
            exact Board.get_piece_set_self hwf hx hy _
          · by_cases huc : u = cx ∧ v = cy
            · right
              rw [Board.get_piece_set_of_ne hnx hny hun _]
              rw [huc.1, huc.2]
              exact Board.get_piece_set_self (hwf.set_piece x y _) hcx hcy _
            · left
              rw [Board.get_piece_set_of_ne hnx hny hun _,
                Board.get_piece_set_of_ne hcx hcy huc _,
                Board.get_piece_set_of_ne hx hy hux _]
              exact hu

/-- Witness for C4: the black man moving from (3, 6) to (4, 7) lands on
row 7 and is promoted. -/
theorem kinging_spec_witness :
    ∃ c k, (Piece.Filled Color.Black false : Piece) = Piece.Filled c k ∧
      promoBoardAfter.get_piece (Action.Move 3 6 4 7).dst.1
          (Action.Move 3 6 4 7).dst.2 =
        some (Piece.Filled c (k || decide ((Action.Move 3 6 4 7).dst.2 =
          (Piece.Filled Color.Black false).king_y_con))) :=
  (@kinging_spec promoBoard (by decide) 3 6 1 1
    (Piece.Filled Color.Black false) (Action.Move 3 6 4 7) promoBoardAfter
    (by decide) (by decide) (by decide)).1

/-! ### Visit accounting of the search (C5) -/

theorem expand_tree_rootSims {σ : Nat → Nat} {d ρ : Nat} {w : Color}
    {t t2 : MCTree} (h : MCTree.expand_tree σ d ρ w t = some t2) :
    t2.rootSims = t.rootSims + 1 := by
  cases t with
  | node st bo cs =>
    cases cs with
    | nil =>
      simp only [MCTree.expand_tree] at h
      cases ha : bo.all_actions with
      | none => rw [ha, Option.none_bind] at h; exact absurd h (by simp)
      | some acts =>
        rw [ha, Option.some_bind] at h
        cases hm : acts.mapM (NodeState.new_child bo) with
        | none => rw [hm, Option.none_bind] at h; exact absurd h (by simp)
        | some cs2 =>
          rw [hm, Option.some_bind] at h
          cases cs2 with
          | nil =>
            have h2 : some (MCTree.node (backPropStep w st bo) bo []) =
                some t2 := h
            cases h2
            rfl
          | cons c cs3 =>
            have h2 : some (MCTree.node (backPropStep w st bo) bo
                ((c :: cs3).set (ρ % (c :: cs3).length)
                  (MCTree.visit w
                    ((c :: cs3).getD (ρ % (c :: cs3).length) c)))) =
                some t2 := h
            cases h2
            rfl
    | cons c cs =>
      simp only [MCTree.expand_tree] at h
      cases hr : MCTree.expand_tree σ (d + 1) ρ w
          ((c :: cs).getD (σ d % (c :: cs).length) c) with
      | none => rw [hr] at h; exact absurd h (by simp)
      | some c2 =>
        rw [hr] at h
        have h2 : some (MCTree.node (backPropStep w st bo) bo
            ((c :: cs).set (σ d % (c :: cs).length) c2)) = some t2 := h
        cases h2
        rfl

theorem sum_rootSims_set :
    ∀ (l : List MCTree) (i : Nat), i < l.length → ∀ (c2 d : MCTree),
      c2.rootSims = (l.getD i d).rootSims + 1 →
      ((l.set i c2).map MCTree.rootSims).sum =
        (l.map MCTree.rootSims).sum + 1 := by
  intro l
  induction l with
  | nil => intro i hi; exact absurd hi (by simp)
  | cons a l ih =>
    intro i hi c2 d hup
    cases i with
    | zero =>
      simp only [List.getD_cons_zero] at hup
      simp [hup]
      omega
    | succ j =>
      have hj : j < l.length := by simpa using hi
      simp only [List.getD_cons_succ] at hup
      simp only [List.set_cons_succ, List.map_cons, List.sum_cons]
      rw [ih j hj c2 d hup]
      omega

theorem expand_tree_step {σ : Nat → Nat} {d ρ : Nat} {w : Color}
    {t t2 : MCTree} (hc : 0 < t.childCount)
    (h : MCTree.expand_tree σ d ρ w t = some t2) :
    t2.childCount = t.childCount ∧
    t2.childSimsSum = t.childSimsSum + 1 := by
  cases t with
  | node st bo cs =>
    cases cs with
    | nil => exact absurd hc (by simp [MCTree.childCount])
    | cons c cs =>
      simp only [MCTree.expand_tree] at h
      cases hr : MCTree.expand_tree σ (d + 1) ρ w
          ((c :: cs).getD (σ d % (c :: cs).length) c) with
      | none => rw [hr] at h; exact absurd h (by simp)
      | some c2 =>
        rw [hr] at h
        have h2 : some (MCTree.node (backPropStep w st bo) bo
            ((c :: cs).set (σ d % (c :: cs).length) c2)) = some t2 := h
        cases h2
        constructor
        · simp [MCTree.childCount]
        · have hi : σ d % (c :: cs).length < (c :: cs).length :=
            Nat.mod_lt _ (by simp)
          exact sum_rootSims_set (c :: cs) _ hi c2 c
            (expand_tree_rootSims hr)

theorem run_search_childSums {ors : Nat → (Nat → Nat) × Nat × Color} :
    ∀ (N : Nat) {t t2 : MCTree}, 0 < t.childCount →
      MCTree.run_search ors N t = some t2 →
      t2.childCount = t.childCount ∧
      t2.childSimsSum = t.childSimsSum + (N : Int) := by
  intro N
  induction N with
  | zero =>
    intro t t2 _ h
    have h2 : some t = some t2 := h
    cases h2
    exact ⟨rfl, by simp⟩
  | succ n ih =>
    intro t t2 hc h
    simp only [MCTree.run_search] at h
    cases he : MCTree.expand_tree (ors n).1 0 (ors n).2.1 (ors n).2.2 t with
    | none => rw [he, Option.none_bind] at h; exact absurd h (by simp)
    | some t1 =>
      rw [he, Option.some_bind] at h
      obtain ⟨hcnt, hsum⟩ := expand_tree_step hc he
      obtain ⟨hcnt2, hsum2⟩ := ih (by omega) h
      refine ⟨by omega, ?_⟩
      rw [hsum2, hsum]
      push_cast
      ring

/-- C5: starting from an expanded root (at least one child, all child
visit counters zero), after `N` completed iterations of the search step
the child visit counters sum to exactly `N`: each backpropagation passes
through exactly one immediate child of the root, and the root's own
counter is not part of the sum. -/
theorem mcts_child_sims_sum (ors : Nat → (Nat → Nat) × Nat × Color)
    (N : Nat) (t t2 : MCTree) (hc : 0 < t.childCount)
    (h0 : t.childSimsSum = 0)
    (h : MCTree.run_search ors N t = some t2) :
    t2.childSimsSum = (N : Int) := by
  obtain ⟨_, hsum⟩ := run_search_childSums N hc h
  rw [hsum, h0]
  simp

theorem expand_tree_wChild_eval :
    MCTree.expand_tree (fun _ => (0 : Nat)) 1 0 Color.Black
      (MCTree.node ⟨0, 0, some (Action.Move 0 0 1 1)⟩ oneManBoardAfter []) =
    some (MCTree.node ⟨1, 1, some (Action.Move 0 0 1 1)⟩
      oneManBoardAfter []) := by
  rw [MCTree.expand_tree]
  have ha : oneManBoardAfter.all_actions = some [] := by decide
  rw [ha, Option.some_bind]
  rfl

theorem run_search_wTree_eval :
    MCTree.run_search wOracles 1 wTree0 = some wTree1 := by
  show (MCTree.expand_tree (wOracles 0).1 0 (wOracles 0).2.1 (wOracles 0).2.2
      wTree0).bind (MCTree.run_search wOracles 0) = some wTree1
  show (MCTree.expand_tree (fun _ => (0 : Nat)) 0 0 Color.Black
      (MCTree.node ⟨0, 0, none⟩ oneManBoard
        [MCTree.node ⟨0, 0, some (Action.Move 0 0 1 1)⟩ oneManBoardAfter
          []])).bind (MCTree.run_search wOracles 0) = some wTree1
  rw [MCTree.expand_tree]
  show (Option.map
      (fun c2 => MCTree.node (backPropStep Color.Black ⟨0, 0, none⟩ oneManBoard)
        oneManBoard
        ([MCTree.node ⟨0, 0, some (Action.Move 0 0 1 1)⟩ oneManBoardAfter
          []].set 0 c2))
      (MCTree.expand_tree (fun _ => (0 : Nat)) 1 0 Color.Black
        (MCTree.node ⟨0, 0, some (Action.Move 0 0 1 1)⟩ oneManBoardAfter
          []))).bind (MCTree.run_search wOracles 0) = some wTree1
  rw [expand_tree_wChild_eval]
  rfl

/-- Witness for C5: one iteration on the concrete one-child tree. -/
theorem mcts_child_sims_sum_witness : wTree1.childSimsSum = ((1 : Nat) : Int) :=
  mcts_child_sims_sum wOracles 1 wTree0 wTree1 (by decide) (by decide)
    run_search_wTree_eval

end Checkers
